import Mathlib

/-!
Verification development for the visual-guess-challenge reveal engine.

The embedding models the Python sources:
  * `src/image_processor.py` / the continuous-progress reveal transforms
    described in the specification (the engine in `src/game_engine.py`
    calls `apply_blur(image, progress)` etc. with a progress scalar);
  * `src/game_engine.py` (progress computation, mode dispatch, scoring,
    answer checking, subject cropping).

Python floats are modelled by exact rationals `ℚ`; pixel grids by a
structure carrying width, height and a pixel function; Python strings by
`List Char` with explicit models of `str.lower()` and `str.strip()`.
-/

namespace VGC

/-- A decoded color image: width, height, and a per-location pixel value
(one channel shown; the three color channels are processed identically by
every operation modelled here). -/
structure Image where
  width : Nat
  height : Nat
  pixel : Nat → Nat → ℚ

/-- Two images agree pixel-for-pixel: same dimensions and the same value at
every in-range location. -/
def Image.pixelIdentical (a b : Image) : Prop :=
  a.width = b.width ∧ a.height = b.height ∧
    ∀ y x, y < a.height → x < a.width → a.pixel y x = b.pixel y x

/-- Clamp an integer index into `[0, n-1]` (OpenCV border replication). -/
def clampIdx (n : Nat) (i : Int) : Nat :=
  (max 0 (min ((n : Int) - 1) i)).toNat

/-- Pixel access at integer coordinates with replicated borders. -/
def Image.pixelZ (img : Image) (y x : Int) : ℚ :=
  img.pixel (clampIdx img.height y) (clampIdx img.width x)

/-- Modelled from the spec: the Gaussian weight `exp(-(i^2)/(2 s^2))` used
by `cv2.GaussianBlur` is represented by a rational surrogate with the same
shape (positive, maximal at `i = 0`, decreasing in `|i|`); no claim in this
development depends on the interior weight values. -/
def gaussWeight (s : ℚ) (i : Int) : ℚ :=
  1 / (1 + ((i * i : Int) : ℚ) / (2 * s * s))

/-- Modelled from the spec: `cv2.GaussianBlur(image, (k, k), s)` — a
normalized separable convolution with kernel size `k`, weights
`gaussWeight`, and replicated borders. -/
def gaussianBlur (img : Image) (k : Nat) (s : ℚ) : Image :=
  let half : Int := (k : Int) / 2
  let norm : ℚ :=
    ((List.range k).map (fun t => gaussWeight s ((t : Int) - half))).sum
  { width := img.width
    height := img.height
    pixel := fun y x =>
      (((List.range k).map (fun dy =>
        ((List.range k).map (fun dx =>
          gaussWeight s ((dy : Int) - half) * gaussWeight s ((dx : Int) - half) *
            img.pixelZ ((y : Int) + (dy : Int) - half)
              ((x : Int) + (dx : Int) - half))).sum)).sum) / (norm * norm) }

/-- Modelled from the spec: the blur strength decreases linearly with
progress, `sigma = 30.0 * (1 - progress)`. -/
def sigmaOf (progress : ℚ) : ℚ := 30 * (1 - progress)

/-- Modelled from the spec: the odd kernel size derived from sigma,
`kernel = int(6 * sigma + 1)`, incremented by one when even. -/
def kernelSizeOf (s : ℚ) : Nat :=
  let k : Int := ⌊6 * s + 1⌋
  (if k % 2 = 0 then k + 1 else k).toNat

/-- Modelled from the spec: the Blur reveal of the continuous-progress
image processor (`apply_blur(image, progress)`): compute
`sigma = 30.0 * (1 - progress)`; if `sigma <= 0.1` return an unmodified
copy, else apply Gaussian smoothing with the derived kernel and sigma. -/
def applyBlur (img : Image) (progress : ℚ) : Image :=
  let s := sigmaOf progress
  if s ≤ 1 / 10 then img
  else gaussianBlur img (kernelSizeOf s) s

/-- Crop starting at `(sx, sy)` with size `cw × ch` (NumPy slice
`image[sy : sy + ch, sx : sx + cw]`). -/
def cropAt (img : Image) (sx sy cw ch : Nat) : Image :=
  { width := cw, height := ch, pixel := fun j i => img.pixel (j + sy) (i + sx) }

/-- Bilinear sample of an image at fractional source coordinates
`(sx, sy)`, with replicated borders. -/
def bilinearSample (img : Image) (sx sy : ℚ) : ℚ :=
  let x0 : Int := ⌊sx⌋
  let y0 : Int := ⌊sy⌋
  let dx : ℚ := sx - (x0 : ℚ)
  let dy : ℚ := sy - (y0 : ℚ)
  (1 - dx) * (1 - dy) * img.pixelZ y0 x0 +
    dx * (1 - dy) * img.pixelZ y0 (x0 + 1) +
    (1 - dx) * dy * img.pixelZ (y0 + 1) x0 +
    dx * dy * img.pixelZ (y0 + 1) (x0 + 1)

/-- Modelled from the spec: `cv2.resize(image, (W, H), INTER_LINEAR)` —
bilinear resize with the OpenCV half-pixel source mapping. -/
def resizeBilinear (img : Image) (W H : Nat) : Image :=
  { width := W
    height := H
    pixel := fun j i =>
      bilinearSample img
        (((i : ℚ) + 1 / 2) * (img.width : ℚ) / (W : ℚ) - 1 / 2)
        (((j : ℚ) + 1 / 2) * (img.height : ℚ) / (H : ℚ) - 1 / 2) }

/-- Modelled from the spec: the crop ratio of the Zoom reveal grows
linearly, `ratio = 0.125 + 0.875 * progress`. -/
def zoomRatio (progress : ℚ) : ℚ := 1 / 8 + 7 / 8 * progress

/-- Modelled from the spec: the Zoom reveal of the continuous-progress
image processor (`apply_zoom(image, progress)`): crop a centered rectangle
of `int(width * ratio)` by `int(height * ratio)` pixels and resize it back
to the original size with bilinear interpolation. -/
def applyZoom (img : Image) (progress : ℚ) : Image :=
  let ratio := zoomRatio progress
  let cropW : Nat := (⌊ratio * (img.width : ℚ)⌋).toNat
  let cropH : Nat := (⌊ratio * (img.height : ℚ)⌋).toNat
  let startX : Nat := (img.width - cropW) / 2
  let startY : Nat := (img.height - cropH) / 2
  resizeBilinear (cropAt img startX startY cropW cropH) img.width img.height

/-- Modelled from the spec: the accelerated blur progress used by the
Hybrid reveal, `min(1.0, progress * 1.25)`. -/
def hybridBlurProgress (progress : ℚ) : ℚ := min 1 (progress * (5 / 4))

/-- Modelled from the spec: the Hybrid reveal
(`apply_hybrid(image, progress)`): apply Zoom at the given progress, then
apply Blur to the zoomed result at the accelerated blur progress. -/
def applyHybrid (img : Image) (progress : ℚ) : Image :=
  applyBlur (applyZoom img progress) (hybridBlurProgress progress)

/-- Clamp a rational into `[0, 1]` (`max(0.0, min(1.0, progress))`). -/
def clamp01 (x : ℚ) : ℚ := max 0 (min 1 x)

/-- Progress computation of `GameEngine.get_processed_image`:
`elapsed / time_limit` when `time_limit > 0`, else `1.0`, then clamped
into `[0, 1]`. -/
def progressOf (timeLimit elapsed : ℚ) : ℚ :=
  clamp01 (if 0 < timeLimit then elapsed / timeLimit else 1)

/-- Mode dispatch of `GameEngine.get_processed_image`: `None` propagates;
otherwise the clamped progress drives the blur / zoom / hybrid transform,
and any other mode string returns a copy of the original image. -/
def getProcessedImage (img : Option Image) (mode : List Char)
    (timeLimit elapsed : ℚ) : Option Image :=
  match img with
  | none => none
  | some im =>
    let progress := progressOf timeLimit elapsed
    if mode = "blur".data then some (applyBlur im progress)
    else if mode = "zoom".data then some (applyZoom im progress)
    else if mode = "hybrid".data then some (applyHybrid im progress)
    else some im

/-- Score computation of `GameEngine.calculate_score`: zero once the limit
is reached or the limit is non-positive, else
`max(0, 100 * (1 - elapsed / time_limit))`. -/
def calculateScore (timeLimit elapsed : ℚ) : ℚ :=
  if timeLimit ≤ elapsed then 0
  else if timeLimit ≤ 0 then 0
  else max 0 (100 * (1 - elapsed / timeLimit))

/-- ASCII whitespace recognized by the model of Python `str.strip()`. -/
def pyIsSpace (c : Char) : Bool :=
  c = ' ' || c = '\t' || c = '\n' || c = '\r' ||
    c = Char.ofNat 11 || c = Char.ofNat 12

/-- Model of Python `str.lower()` on one character (ASCII range). -/
def pyLowerChar (c : Char) : Char :=
  if 65 ≤ c.toNat ∧ c.toNat ≤ 90 then Char.ofNat (c.toNat + 32) else c

/-- Model of Python `str.lower()`. -/
def pyLower (s : List Char) : List Char := s.map pyLowerChar

/-- Model of Python `str.strip()`: drop leading and trailing whitespace. -/
def pyStrip (s : List Char) : List Char :=
  ((s.dropWhile pyIsSpace).reverse.dropWhile pyIsSpace).reverse

/-- Answer-key setter of `GameEngine.set_answer`: stores `answer.lower()`
(lowercased, not stripped). -/
def setAnswer (answer : List Char) : List Char := pyLower answer

/-- Lookup of the synonym dictionary (`key in self.synonyms` /
`self.synonyms[key]`), modelled as an association list. -/
def synLookup (syns : List (List Char × List (List Char))) (k : List Char) :
    Option (List (List Char)) :=
  (syns.find? (fun p => p.fst = k)).map Prod.snd

/-- Answer check of `GameEngine.check_answer`: normalize the guess with
`strip().lower()`, build the accepted set from the stored key plus the
`strip().lower()`-normalized synonyms of the key, decide exact membership,
and pick the display answer (second synonym entry when there are at least
two, else the key). -/
def checkAnswer (key : List Char) (syns : List (List Char × List (List Char)))
    (userAnswer : List Char) : Bool × List Char :=
  let norm := pyLower (pyStrip userAnswer)
  let validAnswers : List (List Char) :=
    key :: (match synLookup syns key with
            | some l => l.map (fun s => pyLower (pyStrip s))
            | none => [])
  let isCorrect := validAnswers.contains norm
  let display : List Char :=
    match synLookup syns key with
    | some l => if 1 < l.length then l.getD 1 key else key
    | none => key
  (isCorrect, display)

/-- Modelled from the spec (for comparison with `checkAnswer`): the claimed
answer check that lowercases and strips whitespace from the stored key as
well as from the guess before the membership test. -/
def checkAnswerClaimed (key : List Char)
    (syns : List (List Char × List (List Char)))
    (userAnswer : List Char) : Bool × List Char :=
  let norm := pyLower (pyStrip userAnswer)
  let keyNorm := pyLower (pyStrip key)
  let validAnswers : List (List Char) :=
    keyNorm :: (match synLookup syns key with
                | some l => l.map (fun s => pyLower (pyStrip s))
                | none => [])
  let isCorrect := validAnswers.contains norm
  let display : List Char :=
    match synLookup syns key with
    | some l => if 1 < l.length then l.getD 1 keyNorm else keyNorm
    | none => keyNorm
  (isCorrect, display)

/-- Bounding rectangle of one contour, as returned by
`cv2.boundingRect`: top-left corner `(x, y)`, width `w`, height `h`. -/
structure CvRect where
  x : Nat
  y : Nat
  w : Nat
  h : Nat
deriving DecidableEq

/-- Contour filter of `GameEngine.crop_to_main_subject` step 5: keep the
bounding rectangles whose area exceeds 0.5% of the image area. -/
def validRectsOf (w h : Nat) (contours : List CvRect) : List CvRect :=
  contours.filter (fun r => ((w * h : Nat) : ℚ) * (5 / 1000) < ((r.w * r.h : Nat) : ℚ))

/-- Union bounding box of the valid rectangles (`min_x`, `min_y`, `max_x`,
`max_y` of `crop_to_main_subject` step 6); `none` when no rectangle
survives the area filter. -/
def unionBoxOf (w h : Nat) (contours : List CvRect) :
    Option (Nat × Nat × Nat × Nat) :=
  match validRectsOf w h contours with
  | [] => none
  | r0 :: rest =>
    some ((rest.map (fun r => r.x)).foldl min r0.x,
          (rest.map (fun r => r.y)).foldl min r0.y,
          (rest.map (fun r => r.x + r.w)).foldl max (r0.x + r0.w),
          (rest.map (fun r => r.y + r.h)).foldl max (r0.y + r0.h))

/-- Padding and clamping of `crop_to_main_subject` step 7: pad the union
box by 15% of the detected width / height, clamped to image bounds. -/
def paddedBoxOf (w h : Nat) (u : Nat × Nat × Nat × Nat) :
    Nat × Nat × Nat × Nat :=
  let padX : Nat := (⌊(((u.2.2.1 - u.1 : Nat) : ℚ)) * (15 / 100)⌋).toNat
  let padY : Nat := (⌊(((u.2.2.2 - u.2.1 : Nat) : ℚ)) * (15 / 100)⌋).toNat
  (u.1 - padX, u.2.1 - padY, min w (u.2.2.1 + padX), min h (u.2.2.2 + padY))

/-- Final size check of `crop_to_main_subject`: the crop is used only when
it is non-empty and strictly larger than 50 pixels in both dimensions. -/
def sizeOk (b : Nat × Nat × Nat × Nat) : Bool :=
  decide (0 < (b.2.2.2 - b.2.1) * (b.2.2.1 - b.1)) &&
    decide (50 < b.2.2.2 - b.2.1) && decide (50 < b.2.2.1 - b.1)

/-- Region kept by `GameEngine.crop_to_main_subject`, as slice bounds
`(x1, y1, x2, y2)` into the original image; `(0, 0, w, h)` means the image
is left unchanged. The detection pipeline output (the contour bounding
rectangles) is a parameter; the decision logic is embedded from the
source. -/
def cropRegion (w h : Nat) (contours : List CvRect) : Nat × Nat × Nat × Nat :=
  if contours.isEmpty then (0, 0, w, h)
  else
    match unionBoxOf w h contours with
    | none => (0, 0, w, h)
    | some u =>
      if (w : ℚ) * (9 / 10) < ((u.2.2.1 - u.1 : Nat) : ℚ) ∧
          (h : ℚ) * (9 / 10) < ((u.2.2.2 - u.2.1 : Nat) : ℚ) then
        (0, 0, w, h)
      else
        let b := paddedBoxOf w h u
        if sizeOk b then b else (0, 0, w, h)

/-- Slice `image[y1 : y2, x1 : x2]` of a pixel grid. -/
def subImage (img : Image) (b : Nat × Nat × Nat × Nat) : Image :=
  { width := b.2.2.1 - b.1
    height := b.2.2.2 - b.2.1
    pixel := fun j i => img.pixel (j + b.2.1) (i + b.1) }

/-- Image-level subject crop: replace the working image with the kept
region computed by `cropRegion`. -/
def cropToMainSubject (img : Image) (contours : List CvRect) : Image :=
  subImage img (cropRegion img.width img.height contours)

end VGC

namespace VGC

/-- Test image used by the closed witness statements. -/
def testImg : Image :=
  { width := 4, height := 4, pixel := fun y x => (y : ℚ) + (x : ℚ) }

theorem applyBlur_one (img : Image) : applyBlur img 1 = img := by
  simp only [applyBlur, sigmaOf]
  norm_num

theorem score_nonneg (tl e : ℚ) : 0 ≤ calculateScore tl e := by
  unfold calculateScore
  split
  · exact le_refl 0
  · split
    · exact le_refl 0
    · exact le_max_left 0 _

theorem progress_at_limit (tl : ℚ) (h : 0 < tl) : progressOf tl tl = 1 := by
  simp only [progressOf, clamp01, if_pos h, div_self (ne_of_gt h)]
  norm_num

theorem cropAt_full (img : Image) : cropAt img 0 0 img.width img.height = img := rfl

theorem zoom_at_one (img : Image) :
    applyZoom img 1 = resizeBilinear img img.width img.height := by
  have hr : zoomRatio 1 = 1 := by norm_num [zoomRatio]
  have hw : (⌊zoomRatio 1 * (img.width : ℚ)⌋).toNat = img.width := by
    rw [hr, one_mul, Int.floor_natCast]
    exact Int.toNat_natCast img.width
  have hh : (⌊zoomRatio 1 * (img.height : ℚ)⌋).toNat = img.height := by
    rw [hr, one_mul, Int.floor_natCast]
    exact Int.toNat_natCast img.height
  show resizeBilinear (cropAt img _ _ _ _) img.width img.height = _
  rw [hw, hh]
  simp only [Nat.sub_self, Nat.zero_div]
  rw [cropAt_full]

theorem clampIdx_of_lt (n : Nat) (i : Nat) (h : i < n) : clampIdx n (i : Int) = i := by
  unfold clampIdx
  have h1 : (i : Int) ≤ (n : Int) - 1 := by omega
  rw [min_eq_right h1, max_eq_right (by positivity)]
  exact Int.toNat_natCast i

theorem resize_same_size (img : Image) (hw : 0 < img.width) (hh : 0 < img.height) :
    (resizeBilinear img img.width img.height).pixelIdentical img := by
  refine ⟨rfl, rfl, fun y x hy hx => ?_⟩
  have hx2 : x < img.width := hx
  have hy2 : y < img.height := hy
  show bilinearSample img _ _ = _
  have hwQ : ((img.width : ℚ)) ≠ 0 := by positivity
  have hhQ : ((img.height : ℚ)) ≠ 0 := by positivity
  have hsx : ((x : ℚ) + 1 / 2) * (img.width : ℚ) / (img.width : ℚ) - 1 / 2 = (x : ℚ) := by
    field_simp; ring
  have hsy : ((y : ℚ) + 1 / 2) * (img.height : ℚ) / (img.height : ℚ) - 1 / 2 = (y : ℚ) := by
    field_simp; ring
  rw [hsx, hsy]
  unfold bilinearSample
  have hfx : ⌊(x : ℚ)⌋ = (x : Int) := Int.floor_natCast x
  have hfy : ⌊(y : ℚ)⌋ = (y : Int) := Int.floor_natCast y
  simp only [hfx, hfy, Int.cast_natCast, sub_self]
  unfold Image.pixelZ
  rw [clampIdx_of_lt _ _ hx2, clampIdx_of_lt _ _ hy2]
  ring

theorem foldl_min_le (l : List Nat) (a : Nat) : l.foldl min a ≤ a := by
  induction l generalizing a with
  | nil => exact le_refl a
  | cons x xs ih =>
    exact le_trans (ih (min a x)) (min_le_left a x)

theorem le_foldl_max (l : List Nat) (a : Nat) : a ≤ l.foldl max a := by
  induction l generalizing a with
  | nil => exact le_refl a
  | cons x xs ih =>
    exact le_trans (le_max_left a x) (ih (max a x))

theorem foldl_max_le (l : List Nat) (a b : Nat) (ha : a ≤ b)
    (hl : ∀ x ∈ l, x ≤ b) : l.foldl max a ≤ b := by
  induction l generalizing a with
  | nil => exact ha
  | cons x xs ih =>
    exact ih (max a x) (max_le ha (hl x (List.mem_cons_self x xs)))
      (fun z hz => hl z (List.mem_cons_of_mem x hz))

theorem paddedBox_full (w h : Nat) (u : Nat × Nat × Nat × Nat)
    (hx1 : u.1 ≤ u.2.2.1) (hx2 : u.2.2.1 ≤ w)
    (hy1 : u.2.1 ≤ u.2.2.2) (hy2 : u.2.2.2 ≤ h)
    (h9w : (w : ℚ) * (9 / 10) ≤ ((u.2.2.1 - u.1 : Nat) : ℚ))
    (h9h : (h : ℚ) * (9 / 10) ≤ ((u.2.2.2 - u.2.1 : Nat) : ℚ)) :
    paddedBoxOf w h u = (0, 0, w, h) := by
  obtain ⟨x1, y1, x2, y2⟩ := u
  dsimp only at hx1 hx2 hy1 hy2 h9w h9h
  simp only [paddedBoxOf]
  have hqx : ((w : Int) - ((x2 - x1 : Nat) : Int) : Int) ≤
      ⌊((x2 - x1 : Nat) : ℚ) * (15 / 100)⌋ := by
    rw [Int.le_floor]
    push_cast
    linarith
  have hqy : ((h : Int) - ((y2 - y1 : Nat) : Int) : Int) ≤
      ⌊((y2 - y1 : Nat) : ℚ) * (15 / 100)⌋ := by
    rw [Int.le_floor]
    push_cast
    linarith
  simp only [Prod.mk.injEq]
  refine ⟨?_, ?_, ?_, ?_⟩ <;> omega

theorem subImage_full (img : Image) :
    subImage img (0, 0, img.width, img.height) = img := rfl

theorem unionBox_bounds (w h : Nat) (cs : List CvRect) (u : Nat × Nat × Nat × Nat)
    (hb : ∀ r ∈ cs, r.x + r.w ≤ w ∧ r.y + r.h ≤ h)
    (hu : unionBoxOf w h cs = some u) :
    u.1 ≤ u.2.2.1 ∧ u.2.2.1 ≤ w ∧ u.2.1 ≤ u.2.2.2 ∧ u.2.2.2 ≤ h := by
  unfold unionBoxOf at hu
  rcases hveq : validRectsOf w h cs with _ | ⟨r0, rest⟩
  · rw [hveq] at hu; exact absurd hu (by simp)
  · rw [hveq] at hu
    simp only [Option.some.injEq] at hu
    have hmem : ∀ r ∈ r0 :: rest, r.x + r.w ≤ w ∧ r.y + r.h ≤ h := by
      intro r hr
      have : r ∈ validRectsOf w h cs := hveq ▸ hr
      exact hb r (List.mem_filter.mp this).1
    subst hu
    refine ⟨?_, ?_, ?_, ?_⟩
    · dsimp only
      calc (rest.map (fun r => r.x)).foldl min r0.x ≤ r0.x := foldl_min_le _ _
      _ ≤ r0.x + r0.w := Nat.le_add_right _ _
      _ ≤ (rest.map (fun r => r.x + r.w)).foldl max (r0.x + r0.w) := le_foldl_max _ _
    · dsimp only
      apply foldl_max_le
      · exact (hmem r0 (List.mem_cons_self r0 rest)).1
      · intro z hz
        obtain ⟨r, hr, rfl⟩ := List.mem_map.mp hz
        exact (hmem r (List.mem_cons_of_mem r0 hr)).1
    · dsimp only
      calc (rest.map (fun r => r.y)).foldl min r0.y ≤ r0.y := foldl_min_le _ _
      _ ≤ r0.y + r0.h := Nat.le_add_right _ _
      _ ≤ (rest.map (fun r => r.y + r.h)).foldl max (r0.y + r0.h) := le_foldl_max _ _
    · dsimp only
      apply foldl_max_le
      · exact (hmem r0 (List.mem_cons_self r0 rest)).2
      · intro z hz
        obtain ⟨r, hr, rfl⟩ := List.mem_map.mp hz
        exact (hmem r (List.mem_cons_of_mem r0 hr)).2

theorem cropRegion_full_of_degenerate (w h : Nat) (cs : List CvRect)
    (hb : ∀ r ∈ cs, r.x + r.w ≤ w ∧ r.y + r.h ≤ h)
    (hcond : cs = [] ∨ validRectsOf w h cs = [] ∨
      (∃ u, unionBoxOf w h cs = some u ∧
        (w : ℚ) * (9 / 10) ≤ ((u.2.2.1 - u.1 : Nat) : ℚ) ∧
        (h : ℚ) * (9 / 10) ≤ ((u.2.2.2 - u.2.1 : Nat) : ℚ)) ∨
      (∃ u, unionBoxOf w h cs = some u ∧ sizeOk (paddedBoxOf w h u) = false)) :
    cropRegion w h cs = (0, 0, w, h) := by
  unfold cropRegion
  by_cases hemp : cs.isEmpty
  · rw [if_pos hemp]
  · rw [if_neg hemp]
    rcases hcond with hA | hB | ⟨u, hu, h9w, h9h⟩ | ⟨u, hu, hsz⟩
    · exact absurd (hA ▸ List.isEmpty_nil) hemp
    · have : unionBoxOf w h cs = none := by unfold unionBoxOf; rw [hB]
      rw [this]
    · rw [hu]
      dsimp only
      split
      · rfl
      · rename_i hlt
        obtain ⟨hx1, hx2, hy1, hy2⟩ := unionBox_bounds w h cs u hb hu
        rw [paddedBox_full w h u hx1 hx2 hy1 hy2 h9w h9h]
        split <;> rfl
    · rw [hu]
      dsimp only
      split
      · rfl
      · rw [hsz]
        rfl

theorem cropRegion_valid (w h : Nat) (cs : List CvRect) :
    (cropRegion w h cs).1 ≤ (cropRegion w h cs).2.2.1 ∧
    (cropRegion w h cs).2.2.1 ≤ w ∧
    (cropRegion w h cs).2.1 ≤ (cropRegion w h cs).2.2.2 ∧
    (cropRegion w h cs).2.2.2 ≤ h := by
  unfold cropRegion
  split
  · dsimp only; omega
  · split
    · dsimp only; omega
    · split
      · dsimp only; omega
      · rename_i u hlt
        dsimp only
        split
        · rename_i hsz
          simp only [sizeOk, Bool.and_eq_true, decide_eq_true_eq] at hsz
          obtain ⟨⟨hpos, h50h⟩, h50w⟩ := hsz
          simp only [paddedBoxOf] at h50h h50w ⊢
          refine ⟨by omega, ?_, by omega, ?_⟩
          · exact min_le_left w _
          · exact min_le_left h _
        · dsimp only; omega

end VGC

namespace VGC

theorem answer_membership_iff (key : List Char)
    (syns : List (List Char × List (List Char))) (guess : List Char) :
    (checkAnswer key syns guess).1 = true ↔
      (pyLower (pyStrip guess) = key ∨
        ∃ l, synLookup syns key = some l ∧
          pyLower (pyStrip guess) ∈ l.map (fun s => pyLower (pyStrip s))) := by
  unfold checkAnswer
  dsimp only
  rw [List.elem_iff]
  constructor
  · intro h
    rcases List.mem_cons.mp h with h | h
    · exact Or.inl h
    · cases hl : synLookup syns key with
      | none => rw [hl] at h; exact absurd h (List.not_mem_nil _)
      | some l => rw [hl] at h; exact Or.inr ⟨l, rfl, h⟩
  · intro h
    rcases h with h | ⟨l, hl, h⟩
    · exact List.mem_cons.mpr (Or.inl h)
    · rw [hl]
      exact List.mem_cons.mpr (Or.inr h)

/-- C1: for every non-null image and every progress `p` in `[0, 1]`, the Blur
reveal computes `sigma = 30.0 * (1 - p)`; when `sigma <= 0.1` it returns an
unmodified copy of the input image, and otherwise it applies Gaussian
smoothing with the derived kernel and that sigma; in particular at `p = 1.0`
the result is pixel-identical to the original. -/
theorem blur_sigma_copy_and_identity (img : Image) (p : ℚ)
    (_h0 : 0 ≤ p) (_h1 : p ≤ 1) :
    sigmaOf p = 30 * (1 - p) ∧
    (sigmaOf p ≤ 1 / 10 → applyBlur img p = img) ∧
    (1 / 10 < sigmaOf p →
      applyBlur img p = gaussianBlur img (kernelSizeOf (sigmaOf p)) (sigmaOf p)) ∧
    applyBlur img 1 = img := by
  refine ⟨rfl, fun h => ?_, fun h => ?_, applyBlur_one img⟩
  · simp only [applyBlur, if_pos h]
  · simp only [applyBlur, if_neg (not_le.mpr h)]

/-- Closed witness for `blur_sigma_copy_and_identity` at `p = 1/2` on a
concrete image. -/
theorem blur_sigma_copy_and_identity_witness :
    (0 : ℚ) ≤ 1 / 2 ∧ (1 / 2 : ℚ) ≤ 1 ∧
    (1 / 10 < sigmaOf (1 / 2) →
      applyBlur testImg (1 / 2) =
        gaussianBlur testImg (kernelSizeOf (sigmaOf (1 / 2))) (sigmaOf (1 / 2))) ∧
    applyBlur testImg 1 = testImg := by
  refine ⟨by norm_num, by norm_num, ?_, ?_⟩
  · exact (blur_sigma_copy_and_identity testImg (1 / 2) (by norm_num)
      (by norm_num)).2.2.1
  · exact (blur_sigma_copy_and_identity testImg (1 / 2) (by norm_num)
      (by norm_num)).2.2.2

/-- C2: for every loaded session with `time_limit > 0` and mode Blur,
`current_view(elapsed = time_limit)` returns the same image as the reveal
transform evaluated at progress `1.0` (and hence the original image),
regardless of the magnitude of the time limit. -/
theorem blur_roundtrip_at_limit (img : Image) (tl : ℚ) (htl : 0 < tl) :
    getProcessedImage (some img) "blur".data tl tl = some (applyBlur img 1) ∧
    getProcessedImage (some img) "blur".data tl tl = some img := by
  have hp : progressOf tl tl = 1 := progress_at_limit tl htl
  constructor
  · simp [getProcessedImage, hp]
  · simp [getProcessedImage, hp, applyBlur_one]

/-- Closed witness for `blur_roundtrip_at_limit` at `time_limit = 30`. -/
theorem blur_roundtrip_at_limit_witness :
    (0 : ℚ) < 30 ∧
    getProcessedImage (some testImg) "blur".data 30 30 = some testImg := by
  refine ⟨by norm_num, ?_⟩
  exact (blur_roundtrip_at_limit testImg 30 (by norm_num)).2

/-- C3 counterexample: the score function is not bounded by 100 on all
inputs — at `elapsed = -30`, `time_limit = 30` the code returns 200. -/
theorem score_above_range_example :
    calculateScore 30 (-30) = 200 ∧ ¬ (calculateScore 30 (-30) ≤ 100) := by
  constructor <;> norm_num [calculateScore]

/-- C3 amended: the score is always nonnegative and returns exactly 0
whenever `elapsed >= time_limit` or `time_limit <= 0`; the upper bound 100
holds for every nonnegative elapsed (for negative elapsed the code returns
more than 100). -/
theorem score_range_amended (tl e : ℚ) :
    0 ≤ calculateScore tl e ∧
    (0 ≤ e → calculateScore tl e ≤ 100) ∧
    (tl ≤ e → calculateScore tl e = 0) ∧
    (tl ≤ 0 → calculateScore tl e = 0) := by
  refine ⟨score_nonneg tl e, fun he => ?_, fun h => ?_, fun h => ?_⟩
  · unfold calculateScore
    split
    · norm_num
    · split
      · norm_num
      · rename_i hlt hpos
        rw [not_le] at hpos
        have hq : 0 ≤ e / tl := div_nonneg he (le_of_lt hpos)
        rw [max_le_iff]
        constructor
        · norm_num
        · linarith
  · unfold calculateScore
    rw [if_pos h]
  · unfold calculateScore
    by_cases h1 : tl ≤ e
    · rw [if_pos h1]
    · rw [if_neg h1, if_pos h]

/-- Closed witness for `score_range_amended` at `time_limit = 30`,
`elapsed = 45`. -/
theorem score_range_amended_witness :
    (0 : ℚ) ≤ 45 ∧ (30 : ℚ) ≤ 45 ∧
    calculateScore 30 45 ≤ 100 ∧ calculateScore 30 45 = 0 := by
  refine ⟨by norm_num, by norm_num, ?_, ?_⟩
  · exact (score_range_amended 30 45).2.1 (by norm_num)
  · exact (score_range_amended 30 45).2.2.1 (by norm_num)

/-- C4 counterexample: the stored key is not trimmed before comparison.
With the stored key `" cat "` (reachable through `set_answer(" CAT ")`,
which lowercases but does not strip) and the guess `"cat"`, the code
answers false while the claimed check (which trims the key) answers
true. -/
theorem answer_key_not_trimmed_example :
    setAnswer " CAT ".data = " cat ".data ∧
    (checkAnswer " cat ".data [] "cat".data).1 = false ∧
    (checkAnswerClaimed " cat ".data [] "cat".data).1 = true ∧
    checkAnswer " cat ".data [] "cat".data ≠
      checkAnswerClaimed " cat ".data [] "cat".data := by
  decide

/-- C4 amended: the answer check lowercases and trims whitespace from the
guess and from every synonym, but uses the stored key as-is (`set_answer`
lowercases it without trimming); the verdict is exact membership of the
normalized guess in `{key} ∪ {normalized synonyms of key}`, never substring
containment; for key `"cat"` with no synonyms, guess `"cats"` yields
`(false, "cat")`. -/
theorem answer_check_amended (key : List Char)
    (syns : List (List Char × List (List Char))) (guess : List Char) :
    ((checkAnswer key syns guess).1 = true ↔
      (pyLower (pyStrip guess) = key ∨
        ∃ l, synLookup syns key = some l ∧
          pyLower (pyStrip guess) ∈ l.map (fun s => pyLower (pyStrip s)))) ∧
    (∀ a, setAnswer a = pyLower a) ∧
    checkAnswer "cat".data [] "cats".data = (false, "cat".data) := by
  exact ⟨answer_membership_iff key syns guess, fun a => rfl, by decide⟩

/-- C5: for every non-null image and every progress `p` in `[0, 1]`, the
Zoom reveal crops a centered rectangle of `int(width * ratio)` by
`int(height * ratio)` pixels with `ratio = 0.125 + 0.875 * p` and resizes
it back to the original size with bilinear interpolation; at `p = 1.0` the
ratio is `1.0`, the crop is the identity crop, and the whole operation is
pixel-identical to the original. -/
theorem zoom_ratio_crop_and_identity (img : Image) (p : ℚ)
    (_h0 : 0 ≤ p) (_h1 : p ≤ 1) :
    zoomRatio p = 1 / 8 + 7 / 8 * p ∧
    applyZoom img p =
      resizeBilinear
        (cropAt img
          ((img.width - (⌊zoomRatio p * (img.width : ℚ)⌋).toNat) / 2)
          ((img.height - (⌊zoomRatio p * (img.height : ℚ)⌋).toNat) / 2)
          ((⌊zoomRatio p * (img.width : ℚ)⌋).toNat)
          ((⌊zoomRatio p * (img.height : ℚ)⌋).toNat))
        img.width img.height ∧
    zoomRatio 1 = 1 ∧
    applyZoom img 1 = resizeBilinear img img.width img.height ∧
    (0 < img.width → 0 < img.height → (applyZoom img 1).pixelIdentical img) := by
  refine ⟨rfl, rfl, by norm_num [zoomRatio], zoom_at_one img, fun hw hh => ?_⟩
  rw [zoom_at_one img]
  exact resize_same_size img hw hh

/-- Closed witness for `zoom_ratio_crop_and_identity` at `p = 1` on a
concrete positive-size image. -/
theorem zoom_ratio_crop_and_identity_witness :
    (0 : ℚ) ≤ 1 ∧ (1 : ℚ) ≤ 1 ∧ 0 < testImg.width ∧ 0 < testImg.height ∧
    (applyZoom testImg 1).pixelIdentical testImg := by
  refine ⟨by norm_num, by norm_num, by norm_num [testImg], by norm_num [testImg], ?_⟩
  exact (zoom_ratio_crop_and_identity testImg 1 (by norm_num)
    (by norm_num)).2.2.2.2 (by norm_num [testImg]) (by norm_num [testImg])

/-- C6: for every non-null image and every progress `p`, the Hybrid reveal
equals the Zoom reveal at `p` followed by the Blur reveal on the zoomed
result at the accelerated blur progress `min(1.0, p * 1.25)`; consequently
for every `p >= 0.8` the blur component is already fully clear and the
hybrid result is exactly the zoomed image. -/
theorem hybrid_staged_reveal (img : Image) (p : ℚ) :
    applyHybrid img p = applyBlur (applyZoom img p) (min 1 (p * (5 / 4))) ∧
    (4 / 5 ≤ p → applyHybrid img p = applyZoom img p) := by
  refine ⟨rfl, fun h => ?_⟩
  have hmin : hybridBlurProgress p = 1 := by
    unfold hybridBlurProgress
    rw [min_eq_left (by linarith)]
  unfold applyHybrid
  rw [hmin, applyBlur_one]

/-- Closed witness for `hybrid_staged_reveal` at `p = 9/10`. -/
theorem hybrid_staged_reveal_witness :
    (4 / 5 : ℚ) ≤ 9 / 10 ∧
    applyHybrid testImg (9 / 10) = applyZoom testImg (9 / 10) := by
  exact ⟨by norm_num, (hybrid_staged_reveal testImg (9 / 10)).2 (by norm_num)⟩

/-- C7: the subject crop never fails — the kept region is always a valid
sub-rectangle of the image — and the image is left unchanged when no
contours are found, when no candidate rectangle exceeds 0.5% of the image
area, when the union bounding box covers at least 90% of both dimensions,
or when the padded crop is empty or not strictly larger than 50 pixels in
both dimensions. -/
theorem subject_crop_total_and_degenerate (img : Image) (cs : List CvRect)
    (hb : ∀ r ∈ cs, r.x + r.w ≤ img.width ∧ r.y + r.h ≤ img.height) :
    ((cropRegion img.width img.height cs).1 ≤
        (cropRegion img.width img.height cs).2.2.1 ∧
      (cropRegion img.width img.height cs).2.2.1 ≤ img.width ∧
      (cropRegion img.width img.height cs).2.1 ≤
        (cropRegion img.width img.height cs).2.2.2 ∧
      (cropRegion img.width img.height cs).2.2.2 ≤ img.height) ∧
    ((cs = [] ∨ validRectsOf img.width img.height cs = [] ∨
        (∃ u, unionBoxOf img.width img.height cs = some u ∧
          (img.width : ℚ) * (9 / 10) ≤ ((u.2.2.1 - u.1 : Nat) : ℚ) ∧
          (img.height : ℚ) * (9 / 10) ≤ ((u.2.2.2 - u.2.1 : Nat) : ℚ)) ∨
        (∃ u, unionBoxOf img.width img.height cs = some u ∧
          sizeOk (paddedBoxOf img.width img.height u) = false)) →
      cropToMainSubject img cs = img) := by
  refine ⟨cropRegion_valid img.width img.height cs, fun hcond => ?_⟩
  unfold cropToMainSubject
  rw [cropRegion_full_of_degenerate img.width img.height cs hb hcond]
  exact subImage_full img

/-- Closed witness for `subject_crop_total_and_degenerate` on an empty
contour list. -/
theorem subject_crop_total_and_degenerate_witness :
    (∀ r ∈ ([] : List CvRect),
      r.x + r.w ≤ testImg.width ∧ r.y + r.h ≤ testImg.height) ∧
    cropToMainSubject testImg [] = testImg := by
  refine ⟨fun r hr => absurd hr (List.not_mem_nil r), ?_⟩
  exact (subject_crop_total_and_degenerate testImg []
    (fun r hr => absurd hr (List.not_mem_nil r))).2 (Or.inl rfl)

/-- C8: for every elapsed and time limit, the per-frame progress is
`clamp(elapsed / time_limit, 0, 1)` when `time_limit > 0` and `1.0` when
`time_limit <= 0`; out-of-range elapsed is silently clamped into `[0, 1]`
rather than raising an error, and the per-frame view is driven by that
clamped progress. -/
theorem progress_clamped_view (img : Image) (tl e : ℚ) :
    0 ≤ progressOf tl e ∧ progressOf tl e ≤ 1 ∧
    (0 < tl → progressOf tl e = max 0 (min 1 (e / tl))) ∧
    (tl ≤ 0 → progressOf tl e = 1) ∧
    getProcessedImage (some img) "blur".data tl e =
      some (applyBlur img (progressOf tl e)) := by
  refine ⟨le_max_left 0 _, ?_, fun h => ?_, fun h => ?_, ?_⟩
  · simp only [progressOf, clamp01]
    rw [max_le_iff]
    exact ⟨by norm_num, min_le_left 1 _⟩
  · simp only [progressOf, clamp01, if_pos h]
  · simp only [progressOf, clamp01, if_neg (not_lt.mpr h)]
    norm_num
  · simp [getProcessedImage]

/-- Closed witness for `progress_clamped_view` at a negative elapsed with
`time_limit = 30`. -/
theorem progress_clamped_view_witness :
    (0 : ℚ) < 30 ∧ progressOf 30 (-5) = max 0 (min 1 ((-5 : ℚ) / 30)) ∧
    0 ≤ progressOf 30 (-5) ∧ progressOf 30 (-5) ≤ 1 := by
  refine ⟨by norm_num, ?_, ?_, ?_⟩
  · exact (progress_clamped_view testImg 30 (-5)).2.2.1 (by norm_num)
  · exact (progress_clamped_view testImg 30 (-5)).1
  · exact (progress_clamped_view testImg 30 (-5)).2.1

/-- C9: for fixed `time_limit > 0` the score is monotonically non-increasing
in elapsed; `score(limit, limit) = 0`, `score(0, limit) = 100` for
`limit > 0`, and `score(x, 0) = 0` for all `x`. -/
theorem score_monotone_properties (tl e1 e2 : ℚ) :
    (0 < tl → e1 ≤ e2 → calculateScore tl e2 ≤ calculateScore tl e1) ∧
    calculateScore tl tl = 0 ∧
    (0 < tl → calculateScore tl 0 = 100) ∧
    calculateScore 0 e1 = 0 := by
  refine ⟨fun htl h => ?_, ?_, fun htl => ?_, ?_⟩
  · rcases le_or_lt tl e2 with h2 | h2
    · have hz : calculateScore tl e2 = 0 := by
        unfold calculateScore; rw [if_pos h2]
      rw [hz]; exact score_nonneg tl e1
    · unfold calculateScore
      rw [if_neg (not_le.mpr h2), if_neg (not_le.mpr htl)]
      have hn1 : ¬ tl ≤ e1 := not_le.mpr (lt_of_le_of_lt h h2)
      rw [if_neg hn1, if_neg (not_le.mpr htl)]
      apply max_le_max (le_refl 0)
      have hd : e1 / tl ≤ e2 / tl := (div_le_div_iff_of_pos_right htl).mpr h
      linarith
  · unfold calculateScore; rw [if_pos (le_refl tl)]
  · unfold calculateScore
    rw [if_neg (not_le.mpr htl), if_neg (not_le.mpr htl)]
    norm_num
  · unfold calculateScore
    split
    · rfl
    · rw [if_pos (le_refl 0)]

/-- Closed witness for `score_monotone_properties` at `time_limit = 30`,
`elapsed = 5` and `10`. -/
theorem score_monotone_properties_witness :
    (0 : ℚ) < 30 ∧ (5 : ℚ) ≤ 10 ∧
    calculateScore 30 10 ≤ calculateScore 30 5 ∧
    calculateScore 30 0 = 100 := by
  refine ⟨by norm_num, by norm_num, ?_, ?_⟩
  · exact (score_monotone_properties 30 5 10).1 (by norm_num) (by norm_num)
  · exact (score_monotone_properties 30 5 10).2.2.1 (by norm_num)

/-- C10: for every non-null loaded image and every mode string outside
`{"blur", "zoom", "hybrid"}`, the per-frame view returns a copy of the
fully revealed original image rather than raising an error. -/
theorem unknown_mode_full_reveal (img : Image) (mode : List Char)
    (tl e : ℚ) (h1 : mode ≠ "blur".data) (h2 : mode ≠ "zoom".data)
    (h3 : mode ≠ "hybrid".data) :
    getProcessedImage (some img) mode tl e = some img := by
  simp only [getProcessedImage, if_neg h1, if_neg h2, if_neg h3]

/-- Closed witness for `unknown_mode_full_reveal` with mode `"sepia"`. -/
theorem unknown_mode_full_reveal_witness :
    "sepia".data ≠ "blur".data ∧ "sepia".data ≠ "zoom".data ∧
    "sepia".data ≠ "hybrid".data ∧
    getProcessedImage (some testImg) "sepia".data 30 10 = some testImg := by
  refine ⟨by decide, by decide, by decide, ?_⟩
  exact unknown_mode_full_reveal testImg "sepia".data 30 10
    (by decide) (by decide) (by decide)

end VGC
